import Mathlib

/-!
Verification development for the pub/sub topic services of
`zato-server/src/zato/server/service/internal/pubsub/topic.py`.

The embedding covers:
* `CollectNonGDDepth.handle` — cluster-wide aggregation of non-GD depth,
* `Clear.handle` — durable clear of a topic under the publish lock,
* `GetInRAMMessageList.handle` — drain of in-RAM messages by subscriber keys.

Python dictionaries are embedded as association lists, machine integers as
`Int`/`Nat`, and fallible dictionary access as `Option`.
-/

namespace ZatoPubSub

/-! ## Depth aggregation (`CollectNonGDDepth.handle`)

The fan-out result `all_depth[1]` is a mapping
`server_name -> {is_ok, server_data : pid -> {is_ok, pid_data}}`.
`pid_data['response']['depth']` is collapsed into one optional integer:
`none` models a missing key (a `KeyError` in the source). -/

structure PidEntry where
  is_ok : Bool
  pid_data : Option Int
deriving DecidableEq, Repr

structure ServerEntry where
  is_ok : Bool
  server_data : Option (List (String × PidEntry))
deriving DecidableEq, Repr

/-- Inner loop of `CollectNonGDDepth.handle`: sum of depths over the pid
entries of one server; `none` when an `is_ok` entry lacks its payload
(the loop would raise `KeyError`). -/
def pidTotal : List (String × PidEntry) → Option Int
  | [] => some 0
  | (_, pe) :: rest =>
    if pe.is_ok then
      match pe.pid_data with
      | none => none
      | some d => (pidTotal rest).map (fun t => d + t)
    else pidTotal rest

/-- Outer loop of `CollectNonGDDepth.handle`: the combined tally over all
server entries, skipping entries whose `is_ok` flag is false. -/
def collectNonGDDepthTotal : List (String × ServerEntry) → Option Int
  | [] => some 0
  | (_, se) :: rest =>
    if se.is_ok then
      match se.server_data with
      | none => none
      | some sd => (pidTotal sd).bind (fun a => (collectNonGDDepthTotal rest).map (fun b => a + b))
    else collectNonGDDepthTotal rest

/-- The `input_required` tuple of `CollectNonGDDepth.SimpleIO` in the source. -/
def collectNonGDDepthInputRequired : List String := ["topic_name"]

/-- Embedding of `CollectNonGDDepth.handle`: invokes `self.servers.invoke_all` on
`zato.pubsub.topic.get-non-gd-depth` with the input topic name and the
literal timeout `10`, then reduces the nested result set.  The RPC
substrate is passed in as `invoke_all` (its result models `all_depth[1]`). -/
def collectNonGDDepthHandle (invoke_all : String → Nat → List (String × ServerEntry))
    (topic_name : String) : Option Int :=
  collectNonGDDepthTotal (invoke_all topic_name 10)

/-- Sum over the pid entries whose `is_ok` flag is true, written after the
spec: "sums `count` over every process entry ... where both flags are true". -/
def specPidOkSum : List (String × PidEntry) → Int
  | [] => 0
  | (_, pe) :: rest => (if pe.is_ok then pe.pid_data.getD 0 else 0) + specPidOkSum rest

/-- Spec-side total: sum of the per-pid depths over exactly those
(server, pid) entries where both success flags are true; every other entry
contributes zero. -/
def specOkDepthSum : List (String × ServerEntry) → Int
  | [] => 0
  | (_, se) :: rest =>
    (if se.is_ok then specPidOkSum (se.server_data.getD []) else 0) + specOkDepthSum rest

/-- A server entry is well formed when, if it is marked ok, its payload is
present and each of its ok pid entries carries a depth. -/
def wellFormedPids : List (String × PidEntry) → Bool
  | [] => true
  | (_, pe) :: rest => ((!pe.is_ok) || pe.pid_data.isSome) && wellFormedPids rest

def wellFormedServer (se : ServerEntry) : Bool :=
  (!se.is_ok) ||
    (match se.server_data with
     | none => false
     | some sd => wellFormedPids sd)

def wellFormedDepthData : List (String × ServerEntry) → Bool
  | [] => true
  | (_, se) :: rest => wellFormedServer se && wellFormedDepthData rest

theorem pidTotal_eq_spec : ∀ l, wellFormedPids l = true → pidTotal l = some (specPidOkSum l) := by
  intro l
  induction l with
  | nil => intro _; rfl
  | cons hd tl ih =>
    obtain ⟨n, pe⟩ := hd
    intro h
    simp only [wellFormedPids, Bool.and_eq_true] at h
    obtain ⟨h1, h2⟩ := h
    cases hok : pe.is_ok with
    | false =>
      simp [pidTotal, specPidOkSum, hok, ih h2]
    | true =>
      rw [hok] at h1
      simp only [Bool.not_true, Bool.false_or] at h1
      obtain ⟨d, hd⟩ := Option.isSome_iff_exists.mp h1
      simp [pidTotal, specPidOkSum, hok, hd, ih h2]

theorem collectTotal_eq_spec :
    ∀ data, wellFormedDepthData data = true →
      collectNonGDDepthTotal data = some (specOkDepthSum data) := by
  intro data
  induction data with
  | nil => intro _; rfl
  | cons hd tl ih =>
    obtain ⟨n, se⟩ := hd
    intro h
    simp only [wellFormedDepthData, Bool.and_eq_true] at h
    obtain ⟨h1, h2⟩ := h
    cases hok : se.is_ok with
    | false =>
      simp [collectNonGDDepthTotal, specOkDepthSum, hok, ih h2]
    | true =>
      rw [wellFormedServer, hok] at h1
      simp only [Bool.not_true, Bool.false_or] at h1
      cases hsd : se.server_data with
      | none => rw [hsd] at h1; exact absurd h1 (by simp)
      | some sd =>
        rw [hsd] at h1
        simp [collectNonGDDepthTotal, specOkDepthSum, hok, hsd,
          pidTotal_eq_spec sd h1, ih h2]

/-- Claim C1: for every well-formed aggregation result set, the total
returned by `CollectNonGDDepth` equals the sum of the per-pid depth values
over exactly those (server, pid) entries where both the server-level and the
pid-level `is_ok` flags are true; entries with a false flag contribute zero
and cause no error (the result is `some`, never `none`). -/
theorem collectNonGDDepth_sums_ok_entries :
    ∀ data, wellFormedDepthData data = true →
      collectNonGDDepthTotal data = some (specOkDepthSum data) :=
  collectTotal_eq_spec

def demoDepthDataC1 : List (String × ServerEntry) :=
  [("A", ⟨true, some [("1", ⟨true, some 2⟩), ("2", ⟨false, none⟩)]⟩),
   ("B", ⟨false, none⟩)]

theorem collectNonGDDepth_sums_ok_entries_witness :
    wellFormedDepthData demoDepthDataC1 = true ∧
      collectNonGDDepthTotal demoDepthDataC1 = some (specOkDepthSum demoDepthDataC1) :=
  ⟨by decide, collectNonGDDepth_sums_ok_entries demoDepthDataC1 (by decide)⟩

/-- Scenario data of the spec: node A ok with process 1 at depth 2 and
process 2 at depth 1; node B ok at depth 0. -/
def demoDepthData : List (String × ServerEntry) :=
  [("A", ⟨true, some [("1", ⟨true, some 2⟩), ("2", ⟨true, some 1⟩)]⟩),
   ("B", ⟨true, some [("1", ⟨true, some 0⟩)]⟩)]

/-- Scenario data with node B's entry marked failed. -/
def demoDepthDataBFailed : List (String × ServerEntry) :=
  [("A", ⟨true, some [("1", ⟨true, some 2⟩), ("2", ⟨true, some 1⟩)]⟩),
   ("B", ⟨false, none⟩)]

/-- Scenario data with node A's process 2 entry marked failed. -/
def demoDepthDataPid2Failed : List (String × ServerEntry) :=
  [("A", ⟨true, some [("1", ⟨true, some 2⟩), ("2", ⟨false, none⟩)]⟩),
   ("B", ⟨true, some [("1", ⟨true, some 0⟩)]⟩)]

/-- Claim C8: on the concrete scenario (node A: process 1 depth 2, process 2
depth 1; node B depth 0) the tally is 3; with node B failed it is still 3;
with node A's process 2 failed it is 2. -/
theorem collectNonGDDepth_concrete_scenario :
    collectNonGDDepthTotal demoDepthData = some 3 ∧
    collectNonGDDepthTotal demoDepthDataBFailed = some 3 ∧
    collectNonGDDepthTotal demoDepthDataPid2Failed = some 2 := by
  refine ⟨?_, ?_, ?_⟩ <;> decide

/-! ### Failure monotonicity

`flip*` relate a result set to one obtained by flipping some subset of
`is_ok` flags from true to false while leaving every payload unchanged. -/

def nonNegPids : List (String × PidEntry) → Bool
  | [] => true
  | (_, pe) :: rest => decide ((0 : Int) ≤ pe.pid_data.getD 0) && nonNegPids rest

def nonNegDepthData : List (String × ServerEntry) → Bool
  | [] => true
  | (_, se) :: rest =>
    (match se.server_data with
     | none => true
     | some sd => nonNegPids sd) && nonNegDepthData rest

def allOkPids : List (String × PidEntry) → Bool
  | [] => true
  | (_, pe) :: rest => pe.is_ok && allOkPids rest

def allOkDepthData : List (String × ServerEntry) → Bool
  | [] => true
  | (_, se) :: rest =>
    (se.is_ok &&
      (match se.server_data with
       | none => false
       | some sd => allOkPids sd)) && allOkDepthData rest

def flipPid (p p' : PidEntry) : Bool :=
  ((!p'.is_ok) || p.is_ok) && decide (p'.pid_data = p.pid_data)

def flipPidList : List (String × PidEntry) → List (String × PidEntry) → Bool
  | [], [] => true
  | (n, p) :: xs, (n', p') :: ys => decide (n' = n) && flipPid p p' && flipPidList xs ys
  | _, _ => false

def flipServer (s s' : ServerEntry) : Bool :=
  ((!s'.is_ok) || s.is_ok) &&
    (match s.server_data, s'.server_data with
     | none, none => true
     | some sd, some sd' => flipPidList sd sd'
     | _, _ => false)

def flipDepthData : List (String × ServerEntry) → List (String × ServerEntry) → Bool
  | [], [] => true
  | (n, s) :: xs, (n', s') :: ys => decide (n' = n) && flipServer s s' && flipDepthData xs ys
  | _, _ => false

theorem wellFormedPids_flip :
    ∀ l l', wellFormedPids l = true → flipPidList l l' = true → wellFormedPids l' = true := by
  intro l
  induction l with
  | nil =>
    intro l' _ hf
    cases l' with
    | nil => rfl
    | cons a b => simp [flipPidList] at hf
  | cons hd tl ih =>
    obtain ⟨n, p⟩ := hd
    intro l' hw hf
    cases l' with
    | nil => simp [flipPidList] at hf
    | cons hd' tl' =>
      obtain ⟨n', p'⟩ := hd'
      simp only [flipPidList, Bool.and_eq_true, decide_eq_true_eq] at hf
      obtain ⟨⟨_, hfp⟩, hftl⟩ := hf
      simp only [wellFormedPids, Bool.and_eq_true] at hw ⊢
      refine ⟨?_, ih tl' hw.2 hftl⟩
      simp only [flipPid, Bool.and_eq_true, decide_eq_true_eq] at hfp
      obtain ⟨hflag, hdata⟩ := hfp
      cases hok' : p'.is_ok with
      | false => simp
      | true =>
        rw [hok'] at hflag
        simp only [Bool.not_true, Bool.false_or] at hflag
        rw [hflag] at hw
        simp only [Bool.not_true, Bool.false_or] at hw
        simp [hdata, hw.1]

theorem wellFormedDepthData_flip :
    ∀ l l', wellFormedDepthData l = true → flipDepthData l l' = true →
      wellFormedDepthData l' = true := by
  intro l
  induction l with
  | nil =>
    intro l' _ hf
    cases l' with
    | nil => rfl
    | cons a b => simp [flipDepthData] at hf
  | cons hd tl ih =>
    obtain ⟨n, s⟩ := hd
    intro l' hw hf
    cases l' with
    | nil => simp [flipDepthData] at hf
    | cons hd' tl' =>
      obtain ⟨n', s'⟩ := hd'
      simp only [flipDepthData, Bool.and_eq_true, decide_eq_true_eq] at hf
      obtain ⟨⟨_, hfs⟩, hftl⟩ := hf
      simp only [wellFormedDepthData, Bool.and_eq_true] at hw ⊢
      refine ⟨?_, ih tl' hw.2 hftl⟩
      have hws := hw.1
      simp only [flipServer, Bool.and_eq_true] at hfs
      obtain ⟨hflag, hdata⟩ := hfs
      cases hok' : s'.is_ok with
      | false => simp [wellFormedServer, hok']
      | true =>
        rw [hok'] at hflag
        simp only [Bool.not_true, Bool.false_or] at hflag
        rw [wellFormedServer, hflag] at hws
        simp only [Bool.not_true, Bool.false_or] at hws
        rw [wellFormedServer, hok']
        simp only [Bool.not_true, Bool.false_or]
        cases hsd : s.server_data with
        | none => rw [hsd] at hws; exact absurd hws (by simp)
        | some sd =>
          rw [hsd] at hws hdata
          cases hsd' : s'.server_data with
          | none => rw [hsd'] at hdata; exact absurd hdata (by simp)
          | some sd' =>
            rw [hsd'] at hdata
            exact wellFormedPids_flip sd sd' hws hdata

theorem specPidOkSum_nonneg :
    ∀ l, nonNegPids l = true → (0 : Int) ≤ specPidOkSum l := by
  intro l
  induction l with
  | nil => intro _; simp [specPidOkSum]
  | cons hd tl ih =>
    obtain ⟨n, p⟩ := hd
    intro h
    simp only [nonNegPids, Bool.and_eq_true, decide_eq_true_eq] at h
    have h2 := ih h.2
    have h1 : (0 : Int) ≤ if p.is_ok then p.pid_data.getD 0 else 0 := by
      cases p.is_ok <;> simp [h.1]
    simpa [specPidOkSum] using add_nonneg h1 h2

theorem specPidOkSum_flip_le :
    ∀ l l', nonNegPids l = true → flipPidList l l' = true →
      specPidOkSum l' ≤ specPidOkSum l := by
  intro l
  induction l with
  | nil =>
    intro l' _ hf
    cases l' with
    | nil => exact le_refl _
    | cons a b => simp [flipPidList] at hf
  | cons hd tl ih =>
    obtain ⟨n, p⟩ := hd
    intro l' hn hf
    cases l' with
    | nil => simp [flipPidList] at hf
    | cons hd' tl' =>
      obtain ⟨n', p'⟩ := hd'
      simp only [flipPidList, Bool.and_eq_true, decide_eq_true_eq] at hf
      obtain ⟨⟨_, hfp⟩, hftl⟩ := hf
      simp only [nonNegPids, Bool.and_eq_true, decide_eq_true_eq] at hn
      simp only [specPidOkSum]
      refine add_le_add ?_ (ih tl' hn.2 hftl)
      simp only [flipPid, Bool.and_eq_true, decide_eq_true_eq] at hfp
      obtain ⟨hflag, hdata⟩ := hfp
      cases hok' : p'.is_ok with
      | false =>
        cases hok : p.is_ok <;> simp [hn.1]
      | true =>
        rw [hok'] at hflag
        simp only [Bool.not_true, Bool.false_or] at hflag
        simp [hflag, hdata]

theorem specOkDepthSum_flip_le :
    ∀ l l', nonNegDepthData l = true → flipDepthData l l' = true →
      specOkDepthSum l' ≤ specOkDepthSum l := by
  intro l
  induction l with
  | nil =>
    intro l' _ hf
    cases l' with
    | nil => exact le_refl _
    | cons a b => simp [flipDepthData] at hf
  | cons hd tl ih =>
    obtain ⟨n, s⟩ := hd
    intro l' hn hf
    cases l' with
    | nil => simp [flipDepthData] at hf
    | cons hd' tl' =>
      obtain ⟨n', s'⟩ := hd'
      simp only [flipDepthData, Bool.and_eq_true, decide_eq_true_eq] at hf
      obtain ⟨⟨_, hfs⟩, hftl⟩ := hf
      simp only [nonNegDepthData, Bool.and_eq_true] at hn
      simp only [specOkDepthSum]
      refine add_le_add ?_ (ih tl' hn.2 hftl)
      simp only [flipServer, Bool.and_eq_true] at hfs
      obtain ⟨hflag, hdata⟩ := hfs
      have hcontrib_nonneg : (0 : Int) ≤ if s.is_ok then specPidOkSum (s.server_data.getD []) else 0 := by
        cases hok : s.is_ok with
        | false => simp
        | true =>
          simp only [if_pos rfl]
          cases hsd : s.server_data with
          | none => simp [specPidOkSum]
          | some sd =>
            have := hn.1
            rw [hsd] at this
            simpa using specPidOkSum_nonneg sd this
      cases hok' : s'.is_ok with
      | false => simpa using hcontrib_nonneg
      | true =>
        rw [hok'] at hflag
        simp only [Bool.not_true, Bool.false_or] at hflag
        rw [if_pos rfl, if_pos hflag]
        cases hsd : s.server_data with
        | none =>
          cases hsd' : s'.server_data with
          | none => simp
          | some sd' => rw [hsd, hsd'] at hdata; exact absurd hdata (by simp)
        | some sd =>
          cases hsd' : s'.server_data with
          | none => rw [hsd, hsd'] at hdata; exact absurd hdata (by simp)
          | some sd' =>
            rw [hsd, hsd'] at hdata
            have := hn.1
            rw [hsd] at this
            simpa using specPidOkSum_flip_le sd sd' this hdata

/-- Claim C4: starting from a well-formed result set with all flags true and
all depths non-negative, flipping any subset of server-level or pid-level
`is_ok` flags to false yields a `CollectNonGDDepth` total that is at most the
all-flags-true total, and the computation still returns a value (no error
arises from the failed entries). -/
theorem collectNonGDDepth_monotone_under_failure :
    ∀ data data', allOkDepthData data = true → nonNegDepthData data = true →
      wellFormedDepthData data = true → flipDepthData data data' = true →
      ∃ t t', collectNonGDDepthTotal data = some t ∧
        collectNonGDDepthTotal data' = some t' ∧ t' ≤ t := by
  intro data data' _ hnn hwf hflip
  have hwf' := wellFormedDepthData_flip data data' hwf hflip
  exact ⟨specOkDepthSum data, specOkDepthSum data',
    collectTotal_eq_spec data hwf, collectTotal_eq_spec data' hwf',
    specOkDepthSum_flip_le data data' hnn hflip⟩

def demoDepthDataC4 : List (String × ServerEntry) :=
  [("A", ⟨true, some [("1", ⟨true, some 2⟩), ("2", ⟨true, some 1⟩)]⟩)]

def demoDepthDataC4Flipped : List (String × ServerEntry) :=
  [("A", ⟨true, some [("1", ⟨true, some 2⟩), ("2", ⟨false, some 1⟩)]⟩)]

theorem collectNonGDDepth_monotone_under_failure_witness :
    ∃ t t', collectNonGDDepthTotal demoDepthDataC4 = some t ∧
      collectNonGDDepthTotal demoDepthDataC4Flipped = some t' ∧ t' ≤ t :=
  collectNonGDDepth_monotone_under_failure demoDepthDataC4 demoDepthDataC4Flipped
    (by decide) (by decide) (by decide) (by decide)

/-! ### Fixed timeout (claim C7) -/

/-- Claim C7 (counterexample): the depth-collection service does not take a
timeout as input — its required input is only the topic name, so the fan-out
cannot be bounded by a caller-supplied timeout. -/
theorem collectNonGDDepth_no_timeout_input :
    ¬ ("timeout" ∈ collectNonGDDepthInputRequired) := by decide

/-- Claim C7 (amended): the depth-collection operation takes only the topic
name as input; the handler always passes the fixed timeout `10` to the
fan-out; and on every well-formed result set it returns the sum over the
successful entries (entries marked failed contribute zero) rather than
failing. -/
theorem collectNonGDDepth_fixed_timeout :
    collectNonGDDepthInputRequired = ["topic_name"] ∧
    (∀ invoke_all topic_name,
      collectNonGDDepthHandle invoke_all topic_name =
        collectNonGDDepthTotal (invoke_all topic_name 10)) ∧
    (∀ data, wellFormedDepthData data = true →
      collectNonGDDepthTotal data = some (specOkDepthSum data)) :=
  ⟨rfl, fun _ _ => rfl, collectTotal_eq_spec⟩

def demoDepthDataC7 : List (String × ServerEntry) :=
  [("A", ⟨true, some [("1", ⟨true, some 5⟩)]⟩), ("B", ⟨false, none⟩)]

theorem collectNonGDDepth_fixed_timeout_witness :
    collectNonGDDepthTotal demoDepthDataC7 = some 5 := by
  rw [collectNonGDDepth_fixed_timeout.2.2 demoDepthDataC7 (by decide)]
  decide

/-! ## Topic clear (`Clear.handle`)

The durable store is embedded as lists of rows; the SQL session is embedded
with transactional semantics: deletions issued inside the transaction become
durable only at `commit`, and any failure before the commit rolls the
transaction back, leaving the durable state untouched.  The `with
self.lock(...)` scope and the two deletions are recorded as an event trace. -/

structure TopicRow where
  id : Nat
  cluster_id : Nat
  name : String
deriving DecidableEq, Repr

structure MsgRow where
  msg_id : Nat
  cluster_id : Nat
  topic_id : Nat
deriving DecidableEq, Repr

structure EnqRow where
  id : Nat
  cluster_id : Nat
  topic_id : Nat
deriving DecidableEq, Repr

structure Db where
  topics : List TopicRow
  messages : List MsgRow
  enqueued : List EnqRow
deriving DecidableEq, Repr

inductive ClearError where
  | notFound
  | multipleFound
  | durableStoreFailure
deriving DecidableEq, Repr

/-- Injected failure point of the durable-store transaction. -/
inductive ClearFail where
  | atFirstDelete
  | atSecondDelete
  | atCommit
deriving DecidableEq, Repr

inductive ClearEv where
  | lockAcquired (key : String)
  | deletedMessages
  | deletedEnqueued
  | committed
  | lockReleased (key : String)
deriving DecidableEq, Repr

structure ClearOutcome where
  trace : List ClearEv
  error : Option ClearError
  db : Db
deriving DecidableEq, Repr

/-- Lock key built by `Clear.handle`: `'zato.pubsub.publish.%s' % topic.name`. -/
def clearLockKey (topic_name : String) : String :=
  "zato.pubsub.publish." ++ topic_name

/-- Modelled from the spec: the publish path (absent from src) takes the
cluster-wide named lock keyed by the string `zato.pubsub.publish.` followed
by the topic name. -/
def publishLockKey (topic_name : String) : String :=
  "zato.pubsub.publish." ++ topic_name

/-- Embedding of `Clear.handle`: resolve the topic by `cluster_id` and `id` (`.one()` —
an error when no row or more than one row matches), then, under the publish
lock, delete the topic's `PubSubMessage` rows and its
`PubSubEndpointEnqueuedMessage` rows and commit.  `fp` injects a
durable-store failure; on any failure the transaction rolls back and the
durable state is unchanged, while the `with` scope still releases the lock. -/
def clearHandle (db : Db) (cluster_id topic_id : Nat) (fp : Option ClearFail) : ClearOutcome :=
  match db.topics.filter (fun t => t.cluster_id == cluster_id && t.id == topic_id) with
  | [] => ⟨[], some ClearError.notFound, db⟩
  | [topic] =>
    let key := clearLockKey topic.name
    match fp with
    | some ClearFail.atFirstDelete =>
      ⟨[ClearEv.lockAcquired key, ClearEv.lockReleased key],
        some ClearError.durableStoreFailure, db⟩
    | some ClearFail.atSecondDelete =>
      ⟨[ClearEv.lockAcquired key, ClearEv.deletedMessages, ClearEv.lockReleased key],
        some ClearError.durableStoreFailure, db⟩
    | some ClearFail.atCommit =>
      ⟨[ClearEv.lockAcquired key, ClearEv.deletedMessages, ClearEv.deletedEnqueued,
          ClearEv.lockReleased key],
        some ClearError.durableStoreFailure, db⟩
    | none =>
      ⟨[ClearEv.lockAcquired key, ClearEv.deletedMessages, ClearEv.deletedEnqueued,
          ClearEv.committed, ClearEv.lockReleased key],
        none,
        { db with
            messages := db.messages.filter
              (fun m => !(m.cluster_id == cluster_id && m.topic_id == topic_id)),
            enqueued := db.enqueued.filter
              (fun e => !(e.cluster_id == cluster_id && e.topic_id == topic_id)) }⟩
  | _ :: _ :: _ => ⟨[], some ClearError.multipleFound, db⟩

def countTopicMessages (db : Db) (cluster_id topic_id : Nat) : Nat :=
  (db.messages.filter (fun m => m.cluster_id == cluster_id && m.topic_id == topic_id)).length

def countTopicEnqueued (db : Db) (cluster_id topic_id : Nat) : Nat :=
  (db.enqueued.filter (fun e => e.cluster_id == cluster_id && e.topic_id == topic_id)).length

theorem filter_not_self {α : Type} (p : α → Bool) :
    ∀ l : List α, (l.filter (fun a => !(p a))).filter p = [] := by
  intro l
  induction l with
  | nil => rfl
  | cons a tl ih => cases h : p a <;> simp [List.filter_cons, h, ih]

/-- Claim C2: when `clear` completes without error, both the durable-message
count and the enqueued-reference count of the cleared topic are zero; on any
failure (in particular a durable-store failure before commit) the durable
state is exactly the pre-call state. -/
theorem clear_atomicity :
    ∀ db cluster_id topic_id fp,
      ((clearHandle db cluster_id topic_id fp).error = none →
        countTopicMessages (clearHandle db cluster_id topic_id fp).db cluster_id topic_id = 0 ∧
        countTopicEnqueued (clearHandle db cluster_id topic_id fp).db cluster_id topic_id = 0) ∧
      ((clearHandle db cluster_id topic_id fp).error.isSome = true →
        (clearHandle db cluster_id topic_id fp).db = db) := by
  intro db cluster_id topic_id fp
  rcases hft : db.topics.filter (fun t => t.cluster_id == cluster_id && t.id == topic_id) with
    _ | ⟨t, _ | ⟨t2, rest⟩⟩
  · simp [clearHandle, hft]
  · cases fp with
    | none =>
      simp [clearHandle, hft, countTopicMessages, countTopicEnqueued, filter_not_self]
    | some c => cases c <;> simp [clearHandle, hft]
  · simp [clearHandle, hft]

def demoDb : Db :=
  { topics := [⟨7, 1, "orders"⟩, ⟨8, 1, "invoices"⟩],
    messages := [⟨100, 1, 7⟩, ⟨101, 1, 7⟩, ⟨102, 1, 8⟩],
    enqueued := [⟨200, 1, 7⟩, ⟨201, 1, 8⟩] }

theorem clear_atomicity_witness :
    countTopicMessages (clearHandle demoDb 1 7 none).db 1 7 = 0 ∧
      countTopicEnqueued (clearHandle demoDb 1 7 none).db 1 7 = 0 :=
  (clear_atomicity demoDb 1 7 none).1 (by decide)

/-- Claim C3: whenever the topic resolves, `clear` takes the named lock whose
key is `zato.pubsub.publish.` followed by the topic name — the very key used
by the publish path — the trace starts with the acquisition and ends with the
release on every exit path (every injected failure included), and on success
the two durable deletions and the commit all happen strictly inside the
lock scope. -/
theorem clear_lock_discipline :
    ∀ db cluster_id topic_id fp topic,
      db.topics.filter (fun t => t.cluster_id == cluster_id && t.id == topic_id) = [topic] →
      clearLockKey topic.name = publishLockKey topic.name ∧
      (clearHandle db cluster_id topic_id fp).trace.head? =
        some (ClearEv.lockAcquired (clearLockKey topic.name)) ∧
      (clearHandle db cluster_id topic_id fp).trace.getLast? =
        some (ClearEv.lockReleased (clearLockKey topic.name)) ∧
      ((clearHandle db cluster_id topic_id fp).error = none →
        (clearHandle db cluster_id topic_id fp).trace =
          [ClearEv.lockAcquired (clearLockKey topic.name), ClearEv.deletedMessages,
            ClearEv.deletedEnqueued, ClearEv.committed,
            ClearEv.lockReleased (clearLockKey topic.name)]) := by
  intro db cluster_id topic_id fp topic hft
  cases fp with
  | none => simp [clearHandle, hft, List.getLast?, clearLockKey, publishLockKey]
  | some c => cases c <;> simp [clearHandle, hft, List.getLast?, clearLockKey, publishLockKey]

theorem clear_lock_discipline_witness :
    clearLockKey "orders" = publishLockKey "orders" ∧
      (clearHandle demoDb 1 7 (some ClearFail.atCommit)).trace.head? =
        some (ClearEv.lockAcquired (clearLockKey "orders")) ∧
      (clearHandle demoDb 1 7 (some ClearFail.atCommit)).trace.getLast? =
        some (ClearEv.lockReleased (clearLockKey "orders")) :=
  have h := clear_lock_discipline demoDb 1 7 (some ClearFail.atCommit) ⟨7, 1, "orders"⟩ (by decide)
  ⟨h.1, h.2.1, h.2.2.1⟩

/-- Claim C5: when no topic row matches the input `cluster_id`/`id` pair,
`clear` fails with the not-found error synchronously: the trace is empty (no
lock was acquired, nothing was deleted) and the durable state is exactly the
pre-call state. -/
theorem clear_not_found :
    ∀ db cluster_id topic_id fp,
      db.topics.filter (fun t => t.cluster_id == cluster_id && t.id == topic_id) = [] →
      clearHandle db cluster_id topic_id fp = ⟨[], some ClearError.notFound, db⟩ := by
  intro db cluster_id topic_id fp hft
  simp [clearHandle, hft]

def demoDbNoTopic : Db :=
  { topics := [⟨8, 1, "invoices"⟩],
    messages := [⟨102, 1, 8⟩],
    enqueued := [⟨201, 1, 8⟩] }

theorem clear_not_found_witness :
    clearHandle demoDbNoTopic 1 7 none = ⟨[], some ClearError.notFound, demoDbNoTopic⟩ :=
  clear_not_found demoDbNoTopic 1 7 none (by decide)

/-- Claim C9: `clear` removes only rows of the two tables scoped to the
input cluster and topic: the topic table is untouched, no row is ever added,
and every durable-message or enqueued-reference row whose cluster or topic
differs from the input survives the call unchanged. -/
theorem clear_frame :
    ∀ db cluster_id topic_id fp,
      (clearHandle db cluster_id topic_id fp).db.topics = db.topics ∧
      (∀ m, m ∈ (clearHandle db cluster_id topic_id fp).db.messages → m ∈ db.messages) ∧
      (∀ m, m ∈ db.messages → ¬(m.cluster_id = cluster_id ∧ m.topic_id = topic_id) →
        m ∈ (clearHandle db cluster_id topic_id fp).db.messages) ∧
      (∀ e, e ∈ (clearHandle db cluster_id topic_id fp).db.enqueued → e ∈ db.enqueued) ∧
      (∀ e, e ∈ db.enqueued → ¬(e.cluster_id = cluster_id ∧ e.topic_id = topic_id) →
        e ∈ (clearHandle db cluster_id topic_id fp).db.enqueued) := by
  intro db cluster_id topic_id fp
  rcases hft : db.topics.filter (fun t => t.cluster_id == cluster_id && t.id == topic_id) with
    _ | ⟨t, _ | ⟨t2, rest⟩⟩
  · simp [clearHandle, hft]
    exact ⟨fun _ hm _ => hm, fun _ he _ => he⟩
  · cases fp with
    | none =>
      refine ⟨by simp [clearHandle, hft], ?_, ?_, ?_, ?_⟩
      · intro m hm
        simp only [clearHandle, hft, List.mem_filter] at hm
        exact hm.1
      · intro m hm hne
        rw [not_and_or] at hne
        simp only [clearHandle, hft, List.mem_filter]
        refine ⟨hm, ?_⟩
        simpa using hne
      · intro e he
        simp only [clearHandle, hft, List.mem_filter] at he
        exact he.1
      · intro e he hne
        rw [not_and_or] at hne
        simp only [clearHandle, hft, List.mem_filter]
        refine ⟨he, ?_⟩
        simpa using hne
    | some c =>
      cases c <;>
        (simp [clearHandle, hft]
         exact ⟨fun _ hm _ => hm, fun _ he _ => he⟩)
  · simp [clearHandle, hft]
    exact ⟨fun _ hm _ => hm, fun _ he _ => he⟩

theorem clear_frame_witness :
    (⟨102, 1, 8⟩ : MsgRow) ∈ (clearHandle demoDb 1 7 none).db.messages :=
  (clear_frame demoDb 1 7 none).2.2.1 ⟨102, 1, 8⟩ (by decide) (by decide)

/-! ## In-RAM message retrieval (`GetInRAMMessageList.handle`)

Python dictionaries are association lists; `alookup` is dictionary access
and `dictUpdate` is `dict.update` (entries of the second argument overwrite
entries of the first). -/

def alookup {κ α : Type} [DecidableEq κ] : List (κ × α) → κ → Option α
  | [], _ => none
  | (k, v) :: rest, key => if k = key then some v else alookup rest key

def dictUpdate {κ α : Type} [DecidableEq κ] (base upd : List (κ × α)) : List (κ × α) :=
  base.filter (fun kv => (alookup upd kv.1).isNone) ++ upd

/-- One non-GD message held in a worker's RAM, keyed by topic and
subscriber key. -/
structure BacklogItem where
  topic_id : Nat
  sub_key : String
  msg_id : String
  msg : Nat
deriving DecidableEq, Repr

/-- Modelled from the spec: `self.pubsub.delivery_backlog.
retrieve_messages_by_sub_keys` (the Backlog Store, absent from src)
atomically removes and returns all messages for the given subscriber keys
under the topic, as a mapping sub_key -> (msg_id -> message); a requested
key with no messages yields an empty entry, not an error. -/
def retrieveMessagesBySubKeys (b : List BacklogItem) (topic_id : Nat)
    (sub_keys : List String) :
    List BacklogItem × List (String × List (String × Nat)) :=
  (b.filter (fun it => !(it.topic_id == topic_id && sub_keys.contains it.sub_key)),
   sub_keys.dedup.map (fun sk =>
     (sk, (b.filter (fun it => it.topic_id == topic_id && it.sub_key == sk)).map
       (fun it => (it.msg_id, it.msg)))))

/-- The `topic_sub_keys.setdefault(topic_id, []).append(sub_key)` step of
the handler: group the `(topic_id, sub_key)` rows by topic. -/
def addSubKey (acc : List (Nat × List String)) (p : Nat × String) : List (Nat × List String) :=
  if acc.any (fun e => e.1 == p.1) then
    acc.map (fun e => if e.1 == p.1 then (e.1, e.2 ++ [p.2]) else e)
  else acc ++ [(p.1, [p.2])]

def groupSubKeys (pairs : List (Nat × String)) : List (Nat × List String) :=
  pairs.foldl addSubKey []

structure InRAMOutcome where
  backlog : List BacklogItem
  drains : List (Nat × List (String × List (String × Nat)))
  messages : List (String × List (String × Nat))
deriving DecidableEq, Repr

/-- The per-topic loop of the handler: drain each topic's subscriber-key
group from the backlog and merge the result into `out` with `dict.update`;
`drains` records each per-topic drain result. -/
def processGroups :
    List BacklogItem → List (Nat × List String) →
    List (Nat × List (String × List (String × Nat))) →
    List (String × List (String × Nat)) → InRAMOutcome
  | b, [], drains, out => ⟨b, drains, out⟩
  | b, g :: rest, drains, out =>
    let r := retrieveMessagesBySubKeys b g.1 g.2
    processGroups r.1 rest (drains ++ [(g.1, r.2)]) (dictUpdate out r.2)

/-- Embedding of `GetInRAMMessageList.handle`: `pairs` is the row set returned by the
external lookup `get_topics_by_sub_keys` for the input `sub_key_list`. -/
def getInRAMMessageList (b : List BacklogItem) (pairs : List (Nat × String)) : InRAMOutcome :=
  processGroups b (groupSubKeys pairs) [] []

/-- Claim C10: when the subscriber-key lookup yields no `(topic, sub_key)`
rows, the handler returns an empty messages mapping, performs no drain, and
leaves the backlog store unchanged. -/
theorem getInRAMMessageList_empty :
    ∀ b, getInRAMMessageList b [] = ⟨b, [], []⟩ :=
  fun _ => rfl

theorem alookup_of_mem_nodup {κ α : Type} [DecidableEq κ] :
    ∀ (l : List (κ × α)) (k : κ) (v : α), (l.map Prod.fst).Nodup → (k, v) ∈ l →
      alookup l k = some v := by
  intro l
  induction l with
  | nil => intro k v _ h; exact absurd h (List.not_mem_nil _)
  | cons hd tl ih =>
    obtain ⟨k0, v0⟩ := hd
    intro k v hnd hm
    rw [List.map_cons, List.nodup_cons] at hnd
    rcases List.mem_cons.mp hm with heq | htl
    · have h1 : k = k0 := congrArg Prod.fst heq
      have h2 : v = v0 := congrArg Prod.snd heq
      subst h1
      subst h2
      simp [alookup]
    · have hkmem : k ∈ List.map Prod.fst tl := by
        simpa using List.mem_map_of_mem Prod.fst htl
      have hne : k0 ≠ k := by
        intro h
        rw [h] at hnd
        exact hnd.1 hkmem
      simp [alookup, hne, ih k v hnd.2 htl]

theorem alookup_eq_none {κ α : Type} [DecidableEq κ] :
    ∀ (l : List (κ × α)) (k : κ), k ∉ l.map Prod.fst → alookup l k = none := by
  intro l
  induction l with
  | nil => intro _ _; rfl
  | cons hd tl ih =>
    obtain ⟨k0, v0⟩ := hd
    intro k hk
    rw [List.map_cons, List.mem_cons] at hk
    push_neg at hk
    have hne : ¬ k0 = k := fun h => hk.1 h.symm
    simp [alookup, hne, ih k hk.2]

theorem alookup_append_right {κ α : Type} [DecidableEq κ] :
    ∀ (l1 l2 : List (κ × α)) (k : κ), (∀ kv ∈ l1, kv.1 ≠ k) →
      alookup (l1 ++ l2) k = alookup l2 k := by
  intro l1
  induction l1 with
  | nil => intro l2 k _; rfl
  | cons hd tl ih =>
    obtain ⟨k0, v0⟩ := hd
    intro l2 k hne
    have h0 : k0 ≠ k := hne (k0, v0) (List.mem_cons_self _ _)
    rw [List.cons_append]
    simp only [alookup, if_neg h0]
    exact ih l2 k (fun kv hkv => hne kv (List.mem_cons_of_mem _ hkv))

theorem dictUpdate_alookup_right {κ α : Type} [DecidableEq κ]
    (base upd : List (κ × α)) (k : κ) (h : (alookup upd k).isSome = true) :
    alookup (dictUpdate base upd) k = alookup upd k := by
  rw [dictUpdate]
  apply alookup_append_right
  intro kv hkv hk
  rcases List.mem_filter.mp hkv with ⟨_, hp⟩
  rw [hk] at hp
  rw [Option.isNone_iff_eq_none.mp hp] at h
  exact absurd h (by simp)

theorem dictUpdate_alookup_left {κ α : Type} [DecidableEq κ] :
    ∀ (base upd : List (κ × α)) (k : κ), alookup upd k = none →
      alookup (dictUpdate base upd) k = alookup base k := by
  intro base
  induction base with
  | nil => intro upd k h; simpa [dictUpdate, alookup] using h
  | cons hd tl ih =>
    obtain ⟨k0, v0⟩ := hd
    intro upd k h
    by_cases hk : k0 = k
    · subst hk
      have hp : (alookup upd k0).isNone = true := by simp [h]
      simp [dictUpdate, List.filter_cons, hp, alookup]
    · rw [dictUpdate, List.filter_cons]
      by_cases hp : (alookup upd (k0, v0).1).isNone = true
      · rw [if_pos hp, List.cons_append]
        simp only [alookup, if_neg hk]
        exact ih upd k h
      · rw [if_neg hp]
        have h2 : alookup ((k0, v0) :: tl) k = alookup tl k := by
          simp [alookup, hk]
        rw [h2]
        exact ih upd k h

theorem map_fst_map_pair {κ β : Type} (f : κ → β) :
    ∀ l : List κ, (l.map (fun k => (k, f k))).map Prod.fst = l := by
  intro l
  induction l with
  | nil => rfl
  | cons a tl ih => simp only [List.map_cons, ih]

theorem retrieve_keys (b : List BacklogItem) (topic_id : Nat) (sub_keys : List String) :
    ((retrieveMessagesBySubKeys b topic_id sub_keys).2).map Prod.fst = sub_keys.dedup :=
  map_fst_map_pair _ sub_keys.dedup

theorem processGroups_preserves_alookup :
    ∀ (gs : List (Nat × List String)) (b : List BacklogItem) drains out (sk : String) v,
      alookup out sk = some v → (∀ g ∈ gs, sk ∉ g.2) →
      alookup (processGroups b gs drains out).messages sk = some v := by
  intro gs
  induction gs with
  | nil => intro b drains out sk v hout _; exact hout
  | cons g rest ih =>
    intro b drains out sk v hout hnot
    have hunf : processGroups b (g :: rest) drains out =
        processGroups (retrieveMessagesBySubKeys b g.1 g.2).1 rest
          (drains ++ [(g.1, (retrieveMessagesBySubKeys b g.1 g.2).2)])
          (dictUpdate out (retrieveMessagesBySubKeys b g.1 g.2).2) := rfl
    rw [hunf]
    have hsk : sk ∉ g.2 := hnot g (List.mem_cons_self _ _)
    have hkeys : alookup (retrieveMessagesBySubKeys b g.1 g.2).2 sk = none := by
      apply alookup_eq_none
      rw [retrieve_keys]
      exact fun h => hsk (List.mem_dedup.mp h)
    refine ih _ _ _ sk v ?_ (fun g' hg' => hnot g' (List.mem_cons_of_mem _ hg'))
    rw [dictUpdate_alookup_left out _ sk hkeys]
    exact hout

theorem processGroups_drain_complete :
    ∀ (gs : List (Nat × List String)) (b : List BacklogItem) drains out,
      List.Pairwise (fun g g' : Nat × List String => ∀ s, s ∈ g.2 → s ∉ g'.2) gs →
      ∀ topic_id res, (topic_id, res) ∈ (processGroups b gs drains out).drains →
        (topic_id, res) ∈ drains ∨
          ∀ sk v, (sk, v) ∈ res →
            alookup (processGroups b gs drains out).messages sk = some v := by
  intro gs
  induction gs with
  | nil => intro b drains out _ topic_id res hmem; exact Or.inl hmem
  | cons g rest ih =>
    intro b drains out hpw topic_id res hmem
    obtain ⟨hg, hrest⟩ := List.pairwise_cons.mp hpw
    have hunf : processGroups b (g :: rest) drains out =
        processGroups (retrieveMessagesBySubKeys b g.1 g.2).1 rest
          (drains ++ [(g.1, (retrieveMessagesBySubKeys b g.1 g.2).2)])
          (dictUpdate out (retrieveMessagesBySubKeys b g.1 g.2).2) := rfl
    rw [hunf] at hmem ⊢
    rcases ih _ _ _ hrest topic_id res hmem with hleft | hgood
    · rcases List.mem_append.mp hleft with hd | hnew
      · exact Or.inl hd
      · right
        rcases List.mem_singleton.mp hnew with heq
        have hres : res = (retrieveMessagesBySubKeys b g.1 g.2).2 :=
          congrArg Prod.snd heq
        intro sk v hsv
        rw [hres] at hsv
        have hsk_keys : sk ∈ ((retrieveMessagesBySubKeys b g.1 g.2).2).map Prod.fst :=
          List.mem_map_of_mem Prod.fst hsv
        have hsk_g : sk ∈ g.2 := List.mem_dedup.mp (retrieve_keys b g.1 g.2 ▸ hsk_keys)
        have hndk : (((retrieveMessagesBySubKeys b g.1 g.2).2).map Prod.fst).Nodup := by
          rw [retrieve_keys]; exact List.nodup_dedup _
        have hlook : alookup (retrieveMessagesBySubKeys b g.1 g.2).2 sk = some v :=
          alookup_of_mem_nodup _ sk v hndk hsv
        apply processGroups_preserves_alookup rest _ _ _ sk v
        · rw [dictUpdate_alookup_right _ _ sk (by simp [hlook])]
          exact hlook
        · exact fun g' hg' => hg g' hg' sk hsk_g
    · exact Or.inr hgood

theorem addSubKey_sound (pairs0 : List (Nat × String)) (acc : List (Nat × List String))
    (p : Nat × String)
    (hacc : ∀ topic_id sks, (topic_id, sks) ∈ acc → ∀ sk ∈ sks, (topic_id, sk) ∈ pairs0)
    (hp : p ∈ pairs0) :
    ∀ topic_id sks, (topic_id, sks) ∈ addSubKey acc p → ∀ sk ∈ sks, (topic_id, sk) ∈ pairs0 := by
  intro topic_id sks hmem sk hsk
  rw [addSubKey] at hmem
  by_cases hany : acc.any (fun e => e.1 == p.1) = true
  · rw [if_pos hany] at hmem
    rcases List.mem_map.mp hmem with ⟨e, he, heq⟩
    cases hkey : (e.1 == p.1) with
    | true =>
      rw [if_pos hkey] at heq
      have h1 : e.1 = topic_id := congrArg Prod.fst heq
      have h2 : e.2 ++ [p.2] = sks := congrArg Prod.snd heq
      subst h1
      rw [← h2] at hsk
      rcases List.mem_append.mp hsk with hold | hnewk
      · exact hacc e.1 e.2 (by simpa using he) sk hold
      · rw [List.mem_singleton.mp hnewk, eq_of_beq hkey]
        simpa using hp
    | false =>
      rw [if_neg (by simp [hkey])] at heq
      exact hacc topic_id sks (heq ▸ he) sk hsk
  · rw [if_neg hany] at hmem
    rcases List.mem_append.mp hmem with hold | hnew
    · exact hacc topic_id sks hold sk hsk
    · have heq := List.mem_singleton.mp hnew
      have h1 : topic_id = p.1 := congrArg Prod.fst heq
      have h2 : sks = [p.2] := congrArg Prod.snd heq
      rw [h2] at hsk
      rw [h1, List.mem_singleton.mp hsk]
      simpa using hp

theorem groupSubKeys_mem_pairs (pairs : List (Nat × String)) :
    ∀ topic_id sks, (topic_id, sks) ∈ groupSubKeys pairs →
      ∀ sk ∈ sks, (topic_id, sk) ∈ pairs := by
  suffices h : ∀ (l : List (Nat × String)) (acc : List (Nat × List String)),
      (∀ p ∈ l, p ∈ pairs) →
      (∀ topic_id sks, (topic_id, sks) ∈ acc → ∀ sk ∈ sks, (topic_id, sk) ∈ pairs) →
      ∀ topic_id sks, (topic_id, sks) ∈ l.foldl addSubKey acc →
        ∀ sk ∈ sks, (topic_id, sk) ∈ pairs by
    exact h pairs [] (fun _ hp => hp) (fun _ _ hmem => absurd hmem (List.not_mem_nil _))
  intro l
  induction l with
  | nil => intro acc _ hacc topic_id sks hmem; exact hacc topic_id sks hmem
  | cons p tl ih =>
    intro acc hl hacc topic_id sks hmem
    exact ih (addSubKey acc p)
      (fun q hq => hl q (List.mem_cons_of_mem _ hq))
      (addSubKey_sound pairs acc p hacc (hl p (List.mem_cons_self _ _)))
      topic_id sks hmem

theorem addSubKey_key_fst (p : Nat × String) (e : Nat × List String) :
    (if e.1 == p.1 then (e.1, e.2 ++ [p.2]) else e).1 = e.1 := by
  cases h : (e.1 == p.1) <;> simp [h]

theorem addSubKey_pairwise (acc : List (Nat × List String)) (p : Nat × String)
    (h : List.Pairwise (fun a b : Nat × List String => a.1 ≠ b.1) acc) :
    List.Pairwise (fun a b : Nat × List String => a.1 ≠ b.1) (addSubKey acc p) := by
  rw [addSubKey]
  by_cases hany : acc.any (fun e => e.1 == p.1) = true
  · rw [if_pos hany, List.pairwise_map]
    exact h.imp (fun {a b} hab => by
      rw [addSubKey_key_fst p a, addSubKey_key_fst p b]; exact hab)
  · rw [if_neg hany, List.pairwise_append]
    refine ⟨h, List.pairwise_singleton _ _, ?_⟩
    intro a ha b hb
    rw [List.mem_singleton.mp hb]
    have := List.any_eq_true.not.mp hany
    push_neg at this
    have hne := this a ha
    simpa using hne

theorem groupSubKeys_pairwise_ne (pairs : List (Nat × String)) :
    List.Pairwise (fun a b : Nat × List String => a.1 ≠ b.1) (groupSubKeys pairs) := by
  suffices h : ∀ (l : List (Nat × String)) (acc : List (Nat × List String)),
      List.Pairwise (fun a b : Nat × List String => a.1 ≠ b.1) acc →
      List.Pairwise (fun a b : Nat × List String => a.1 ≠ b.1) (l.foldl addSubKey acc) by
    exact h pairs [] List.Pairwise.nil
  intro l
  induction l with
  | nil => intro acc hacc; exact hacc
  | cons p tl ih => intro acc hacc; exact ih (addSubKey acc p) (addSubKey_pairwise acc p hacc)

theorem pairwise_imp_of_mem {α : Type} {R S : α → α → Prop} :
    ∀ l : List α, (∀ a b, a ∈ l → b ∈ l → R a b → S a b) → l.Pairwise R → l.Pairwise S := by
  intro l
  induction l with
  | nil => intro _ _; exact List.Pairwise.nil
  | cons a tl ih =>
    intro h hp
    rcases List.pairwise_cons.mp hp with ⟨ha, htl⟩
    exact List.Pairwise.cons
      (fun b hb => h a b (List.mem_cons_self _ _) (List.mem_cons_of_mem _ hb) (ha b hb))
      (ih (fun x y hx hy => h x y (List.mem_cons_of_mem _ hx) (List.mem_cons_of_mem _ hy)) htl)

/-- Claim C6: `GetInRAMMessageList` groups the resolved `(topic, sub_key)`
rows by topic, drains each topic's key group from the backlog, and merges
the per-topic drain results into one flat mapping; provided each subscriber
key belongs to at most one topic, every entry of every per-topic drain
result is present, unchanged, in the merged mapping. -/
theorem getInRAMMessageList_merge_complete :
    ∀ (b : List BacklogItem) (pairs : List (Nat × String)),
      (∀ t1 t2 sk, (t1, sk) ∈ pairs → (t2, sk) ∈ pairs → t1 = t2) →
      ∀ topic_id res, (topic_id, res) ∈ (getInRAMMessageList b pairs).drains →
        ∀ sk v, (sk, v) ∈ res →
          alookup (getInRAMMessageList b pairs).messages sk = some v := by
  intro b pairs huniq topic_id res hmem sk v hsv
  have hdisj : List.Pairwise (fun g g' : Nat × List String => ∀ s, s ∈ g.2 → s ∉ g'.2)
      (groupSubKeys pairs) := by
    refine pairwise_imp_of_mem _ ?_ (groupSubKeys_pairwise_ne pairs)
    intro g g' hg hg' hne s hs hs'
    exact hne (huniq g.1 g'.1 s (groupSubKeys_mem_pairs pairs g.1 g.2 hg s hs)
      (groupSubKeys_mem_pairs pairs g'.1 g'.2 hg' s hs'))
  rcases processGroups_drain_complete (groupSubKeys pairs) b [] [] hdisj topic_id res hmem with
    hfalse | hgood
  · exact absurd hfalse (List.not_mem_nil _)
  · exact hgood sk v hsv

def demoBacklog : List BacklogItem :=
  [⟨1, "ka", "m1", 7⟩, ⟨1, "kb", "m2", 8⟩]

def demoPairs : List (Nat × String) := [(1, "ka"), (1, "kb")]

theorem getInRAMMessageList_merge_complete_witness :
    alookup (getInRAMMessageList demoBacklog demoPairs).messages "ka" = some [("m1", 7)] :=
  getInRAMMessageList_merge_complete demoBacklog demoPairs
    (by
      intro t1 t2 sk h1 h2
      simp only [demoPairs, List.mem_cons, List.not_mem_nil, or_false,
        Prod.mk.injEq] at h1 h2
      rcases h1 with ⟨rfl, _⟩ | ⟨rfl, _⟩ <;> rcases h2 with ⟨rfl, _⟩ | ⟨rfl, _⟩ <;> rfl)
    1 [("ka", [("m1", 7)]), ("kb", [("m2", 8)])] (by decide) "ka" [("m1", 7)] (by decide)

end ZatoPubSub
